import Mathlib

/-!
# Verification of the prompt-builder / tag-highlighter extension

Shallow embedding of the tag-resolution and live-decoration engine:

* the match loop of `updateDecorations` (out/extension "tag highlighter"
  variant, lines 66-77), over an abstract JavaScript `RegExp.exec` matcher;
* the lexical path resolver `toAbsolute` (lines 141-145) together with the
  relevant semantics of Node's POSIX `path.join` / `path.normalize`,
  JS `String.prototype.split` with a string separator, and splitting on the
  character class `[/\\]`, with JS strings modelled as `List Char`;
* the content resolver `readFileTruncated` (lines 155-172) and
  `pathExists` (lines 146-154), with the file system modelled as a snapshot
  function from paths to nodes, file contents as byte lists, and the
  module-level `CACHE` map as a function from paths to optional entries;
* the watcher reference-count table `retainWatcher` / `releaseWatcher`
  (lines 181-205);
* the `expandedKeys` reconciliation performed by the
  `onDidChangeVisibleTextEditors` handler (prompt-builder variant,
  lines 155-194): `clear()` followed by re-adding the freshly derived keys;
* the completion step of a recomputation pass: `editor.setDecorations`
  applies a pass's computed plan unconditionally (lines 123-125), with no
  pass counter;
* the `onDidChangeConfiguration` handler (lines 17-22): any configuration
  change under the `tagHighlighter` section disposes and recreates the
  decoration resources.
-/

/-! ## Pattern matcher: the `while ((m = pattern.exec(text)) !== null)` loop -/

/-- One result of `pattern.exec`: `index` is `m.index`, `len` is
`m[0].length`. -/
structure ExecResult where
  index : Nat
  len : Nat
deriving DecidableEq

/-- Abstract semantics of a compiled global JS `RegExp`: given the text and
the current `lastIndex`, yield the first match at or after that position, or
`none`. -/
def Matcher : Type := String → Nat → Option ExecResult

/-- The JS `exec` contract for a global regex: a match starts at or after
`lastIndex` and ends within the text. -/
def jsMatcherWF (f : Matcher) (text : String) : Prop :=
  ∀ li r, f text li = some r → li ≤ r.index ∧ r.index + r.len ≤ text.length

/-- After a successful `exec`, JS sets `lastIndex := m.index + m[0].length`;
the loop guard `if (m.index === pattern.lastIndex) pattern.lastIndex++`
then bumps it past a zero-length match. -/
def nextScanPos (r : ExecResult) : Nat :=
  if r.index = r.index + r.len then r.index + r.len + 1 else r.index + r.len

/-- The match loop of `updateDecorations` (lines 66-77): each iteration
pushes the occurrence `(m.index, m.index + m[0].length)` and continues the
scan at `nextScanPos`.  The fuel argument bounds the iteration count; any
fuel of at least `text.length + 1 - li` is enough (see
`matchLoopAux_stable`). -/
def matchLoopAux (f : Matcher) (text : String) : Nat → Nat → List (Nat × Nat)
  | 0, _ => []
  | fuel + 1, li =>
    match f text li with
    | none => []
    | some r => (r.index, r.index + r.len) :: matchLoopAux f text fuel (nextScanPos r)

/-- The occurrence offset ranges produced by one run of the match loop,
starting from `lastIndex = 0`. -/
def matchOffsets (f : Matcher) (text : String) : List (Nat × Nat) :=
  matchLoopAux f text (text.length + 1) 0

/-- JS semantics of the compilable user pattern `/x*/g` run over a text that
contains no `x`: the first match at or after any in-range position is the
empty string at that position. -/
def emptyMatcher : Matcher :=
  fun text li => if li ≤ text.length then some ⟨li, 0⟩ else none

/-! ## Lexical path resolution: `toAbsolute` (lines 141-145)

JS strings are modelled as `List Char`.  The embedding covers JS
`String.prototype.split` with a (non-empty) string separator, splitting on
the character class `[/\\]`, and the POSIX semantics of Node's `path.join`
and `path.normalize` (resolution of `.` and `..`, collapsing of repeated
separators; trailing-separator preservation is irrelevant here because the
joined segments never end in a separator). -/

/-- JS strings, as sequences of characters. -/
abbrev JsStr := List Char

/-- If `sep` is a leading run of `text`, return the remainder of `text`
after it; otherwise `none`. -/
def dropAfterSep : JsStr → JsStr → Option JsStr
  | [], t => some t
  | _ :: _, [] => none
  | s :: ss, c :: cs => if s = c then dropAfterSep ss cs else none

/-- Scan for `String.prototype.split`: cut at every position where the
separator matches.  `acc` holds the current piece reversed; the fuel bounds
the scan and `text.length + 1` is always enough. -/
def jsSplitAux (sep : JsStr) : Nat → JsStr → JsStr → List JsStr
  | 0, acc, _ => [acc.reverse]
  | fuel + 1, acc, text =>
    match dropAfterSep sep text with
    | some rest => acc.reverse :: jsSplitAux sep fuel [] rest
    | none =>
      match text with
      | [] => [acc.reverse]
      | c :: cs => jsSplitAux sep fuel (c :: acc) cs

/-- JS `text.split(sep)` for a non-empty string separator.  The source only
calls this with `cfg.get('pathSeparator') || ':'`, which is never the empty
string; for completeness an empty separator leaves the text in one piece. -/
def jsSplit (sep text : JsStr) : List JsStr :=
  if sep.isEmpty then [text] else jsSplitAux sep (text.length + 1) [] text

/-- Splitting on a character predicate, as JS `split(/[\/\\]/)` does with
the class below. -/
def splitByPred (p : Char → Bool) : JsStr → JsStr → List JsStr
  | acc, [] => [acc.reverse]
  | acc, c :: cs =>
    if p c then acc.reverse :: splitByPred p [] cs else splitByPred p (c :: acc) cs

/-- The character class `[/\\]` of the inner split in `toAbsolute`. -/
def isSlashChar (c : Char) : Bool := c == '/' || c == '\\'

/-- Lines 142-143: `tagInner.split(sep).flatMap(p => p.split(/[\/\\]/))
.filter(Boolean)` — the segment decomposition of a tag's inner text. -/
def partsOf (tagInner sep : JsStr) : List JsStr :=
  ((jsSplit sep tagInner).flatMap (fun p => splitByPred isSlashChar [] p)).filter
    (fun s => !s.isEmpty)

/-- Resolve `.` and `..` segments as POSIX `path.normalize` does: `..` pops
the previous real segment; at the top it is dropped for an absolute path and
kept for a relative one.  `acc` holds processed segments reversed. -/
def collapseDots (abs : Bool) : List JsStr → List JsStr → List JsStr
  | acc, [] => acc.reverse
  | acc, s :: rest =>
    if s = ['.'] then collapseDots abs acc rest
    else if s = ['.', '.'] then
      match acc with
      | [] => if abs then collapseDots abs [] rest else collapseDots abs [['.', '.']] rest
      | t :: acc2 =>
        if t = ['.', '.'] then collapseDots abs (s :: acc) rest
        else collapseDots abs acc2 rest
    else collapseDots abs (s :: acc) rest

/-- Whether a POSIX path is absolute. -/
def isAbsolutePath (p : JsStr) : Bool :=
  match p with
  | '/' :: _ => true
  | _ => false

/-- POSIX `path.normalize`: split on `/`, drop empty segments, resolve `.`
and `..`, and reassemble; the empty path normalizes to `.`. -/
def pathNormalize (p : JsStr) : JsStr :=
  if p.isEmpty then ['.']
  else
    let abs := isAbsolutePath p
    let segs := (splitByPred (fun c => c == '/') [] p).filter (fun s => !s.isEmpty)
    let core := List.intercalate ['/'] (collapseDots abs [] segs)
    if abs then '/' :: core
    else if core.isEmpty then ['.'] else core

/-- POSIX `path.join`: drop empty arguments, interleave `/`, then
normalize; with nothing left, the result is `.`. -/
def pathJoin (ps : List JsStr) : JsStr :=
  let joined := List.intercalate ['/'] (ps.filter (fun s => !s.isEmpty))
  if joined.isEmpty then ['.'] else pathNormalize joined

/-- Lines 141-145: `toAbsolute(baseDir, tagInner, sep)` — split the inner
text by the configured separator and by slashes, drop empty segments, join
onto the base directory and normalize. -/
def toAbsolute (baseDir tagInner sep : JsStr) : JsStr :=
  pathNormalize (pathJoin (baseDir :: partsOf tagInner sep))

/-! ## Content resolver and cache: `pathExists` (146-154) and
`readFileTruncated` (155-172)

The file system is a snapshot mapping each path to an optional node; file
contents are byte lists (`buf` in the source is a Node `Buffer`; the string
the source returns is the UTF-8 decoding of the bytes it keeps, so byte
lists are the faithful carrier for the byte-bounded claims).  The
module-level `CACHE` map is a function from paths to optional entries. -/

/-- A filesystem node as `fs.promises.stat` distinguishes it here: a regular
file with modification time and content bytes, or a directory with a
modification time (for which `fs.promises.readFile` fails with `EISDIR`). -/
inductive FsNode where
  | file (mtimeMs : Int) (bytes : List Nat)
  | dir (mtimeMs : Int)
deriving DecidableEq

/-- `st.mtimeMs` of a stat result. -/
def FsNode.mtimeMs : FsNode → Int
  | .file m _ => m
  | .dir m => m

/-- A snapshot of the file system; `none` means `stat` throws (no entry). -/
def Fs : Type := String → Option FsNode

/-- One entry of the module-level `CACHE`: `{ mtimeMs, text }`, where
`text` is kept as the bytes whose UTF-8 decoding the source stores. -/
structure CacheEntry where
  mtimeMs : Int
  text : List Nat
deriving DecidableEq

/-- The module-level `CACHE : Map<string, {mtimeMs, text}>`. -/
def Cache : Type := String → Option CacheEntry

/-- `CACHE.set(p, e)`. -/
def Cache.set (c : Cache) (p : String) (e : CacheEntry) : Cache :=
  fun q => if q = p then some e else c q

/-- `CACHE.delete(p)`. -/
def Cache.del (c : Cache) (p : String) : Cache :=
  fun q => if q = p then none else c q

/-- Lines 163-164: `if (maxBytes && buf.byteLength > maxBytes) buf =
buf.subarray(0, maxBytes)` — note that `maxBytes = 0` is falsy, so a zero
limit disables truncation. -/
def truncateBytes (maxBytes : Nat) (bytes : List Nat) : List Nat :=
  if maxBytes ≠ 0 ∧ maxBytes < bytes.length then bytes.take maxBytes else bytes

/-- The cache-miss tail of `readFileTruncated` (lines 162-167): read the
file (failing for a directory), truncate, store under the stat mtime, and
return the text.  The `catch` branch returns the empty string and leaves
the cache untouched. -/
def readMiss (c : Cache) (p : String) (maxBytes : Nat) : FsNode → List Nat × Cache
  | .dir _ => ([], c)
  | .file m bytes =>
    (truncateBytes maxBytes bytes,
     Cache.set c p { mtimeMs := m, text := truncateBytes maxBytes bytes })

/-- Lines 155-172: `readFileTruncated(p, maxBytes)` returning the produced
text together with the cache state after the call.  `stat` failing, or
`readFile` failing on a directory, is caught and yields the empty string. -/
def readFileTruncated (fs : Fs) (c : Cache) (p : String) (maxBytes : Nat) :
    List Nat × Cache :=
  match fs p with
  | none => ([], c)
  | some node =>
    match c p with
    | some e =>
      if e.mtimeMs = node.mtimeMs then (e.text, c) else readMiss c p maxBytes node
    | none => readMiss c p maxBytes node

/-- Lines 146-154: `pathExists(p)` — `stat` succeeds and the node is a file
or a directory; any `stat` failure yields `false`. -/
def pathExists (fs : Fs) (p : String) : Bool :=
  match fs p with
  | none => false
  | some (.file _ _) => true
  | some (.dir _) => true

/-! ## Watcher reference counting: `retainWatcher` / `releaseWatcher`
(lines 181-205)

The module-level `WATCHERS : Map<string, {watcher, refs}>` is modelled as
an association list from paths to reference counts (`Int`, so that the
never-negative claim is not true by type alone); the watcher handles
themselves only matter through the `dispose()` calls, recorded in order. -/

/-- `WATCHERS.get(p)?.refs` over an association list. -/
def lookupRefs : List (String × Int) → String → Option Int
  | [], _ => none
  | (q, r) :: rest, p => if q = p then some r else lookupRefs rest p

/-- Replace the reference count of the first binding of `p`. -/
def setRefs : List (String × Int) → String → Int → List (String × Int)
  | [], p, r => [(p, r)]
  | (q, r0) :: rest, p, r =>
    if q = p then (q, r) :: rest else (q, r0) :: setRefs rest p r

/-- `WATCHERS.delete(p)`: remove the first binding of `p`. -/
def eraseKey : List (String × Int) → String → List (String × Int)
  | [], _ => []
  | (q, r) :: rest, p => if q = p then rest else (q, r) :: eraseKey rest p

/-- The process-wide watch state: the `WATCHERS` table, the `CACHE`, and
the sequence of watcher `dispose()` calls issued so far. -/
structure WatchState where
  watchers : List (String × Int)
  cache : Cache
  disposed : List String

/-- Lines 181-194: `retainWatcher(p, _)` — bump the count of an existing
registration, otherwise create a watcher with one reference. -/
def retainWatcher (st : WatchState) (p : String) : WatchState :=
  match lookupRefs st.watchers p with
  | some r => { st with watchers := setRefs st.watchers p (r + 1) }
  | none => { st with watchers := (p, 1) :: st.watchers }

/-- Lines 195-205: `releaseWatcher(p)` — a missing registration is a no-op;
otherwise decrement, and on reaching zero dispose the watcher, drop the
table entry and drop the cache entry. -/
def releaseWatcher (st : WatchState) (p : String) : WatchState :=
  match lookupRefs st.watchers p with
  | none => st
  | some r =>
    if r - 1 ≤ 0 then
      { watchers := eraseKey st.watchers p,
        cache := Cache.del st.cache p,
        disposed := st.disposed ++ [p] }
    else { st with watchers := setRefs st.watchers p (r - 1) }

/-- One watcher operation. -/
inductive WOp where
  | retain (p : String)
  | release (p : String)

/-- Run a sequence of watcher operations. -/
def runWOps (st : WatchState) : List WOp → WatchState
  | [] => st
  | WOp.retain p :: rest => runWOps (retainWatcher st p) rest
  | WOp.release p :: rest => runWOps (releaseWatcher st p) rest

/-- The state at extension activation: no watchers, empty cache. -/
def initialWatchState : WatchState :=
  { watchers := [], cache := fun _ => none, disposed := [] }

/-! ## Expanded-state tracking: the `onDidChangeVisibleTextEditors`
reconciliation (prompt-builder variant, lines 155-194)

`expandedKeys` is a JS `Set<string>`; it is modelled as a duplicate-free
insertion list.  The handler computes `presentPreviewKeys` and then runs
`expandedKeys.clear(); for (const k of presentPreviewKeys)
expandedKeys.add(k)`. -/

/-- `Set.add`: append the key unless already present. -/
def addKey (s : List String) (k : String) : List String :=
  if k ∈ s then s else s ++ [k]

/-- Lines 188-190: replace the whole expanded set with the freshly derived
keys; the previous contents (`oldKeys`) are discarded by `clear()`. -/
def reconcile (oldKeys present : List String) : List String :=
  present.foldl addKey []

/-- `expandedKeys.has(k)`. -/
def isExpanded (s : List String) (k : String) : Bool := k ∈ s

/-! ## Pass completion: `editor.setDecorations` (lines 123-125)

A recomputation pass for a document snapshots the text when it starts and
applies its computed plan when it completes.  The code keeps no pass
counter and performs no staleness check before `setDecorations`, so the
application step unconditionally replaces whatever was applied before. -/

/-- One completed recomputation pass: the order in which it started and the
render plan it computed (the decoration ranges). -/
structure PassResult where
  startOrder : Nat
  plan : List (Nat × Nat)
deriving DecidableEq

/-- The completion step of `updateDecorations`: `setDecorations`
unconditionally installs this pass's plan. -/
def applyPassResult (applied : Option PassResult) (r : PassResult) : Option PassResult :=
  some r

/-- Apply a sequence of pass completions, in completion order. -/
def runCompletions (applied : Option PassResult) : List PassResult → Option PassResult
  | [] => applied
  | r :: rest => runCompletions (applyPassResult applied r) rest

/-! ## Configuration changes: the `onDidChangeConfiguration` handler
(lines 17-22) -/

/-- The decoration resources: which `createDecorations()` call produced the
live decoration types, and how many `disposeDecorations()` calls have
run. -/
structure DecoResources where
  generation : Nat
  disposals : Nat
deriving DecidableEq

/-- Lines 17-22: if the change touches the `tagHighlighter` section the
handler disposes and recreates the decoration types (and schedules a
recomputation); otherwise it returns without doing anything. -/
def onConfigChange (affectsTagHighlighter : Bool) (s : DecoResources) : DecoResources :=
  if affectsTagHighlighter then
    { generation := s.generation + 1, disposals := s.disposals + 1 }
  else s

/-- A file system with one file, used to instantiate C1 on a cache hit. -/
def fsHit : Fs := fun q => if q = "f" then some (FsNode.file 7 [104, 105]) else none

/-- A cache holding that file's bytes under the matching modification
time. -/
def cacheHit : Cache :=
  fun q => if q = "f" then some { mtimeMs := 7, text := [104, 105] } else none

/-- An empty cache, as at activation. -/
def emptyCache : Cache := fun _ => none

/-- A file system with a single one-byte file. -/
def fsOneByte : Fs := fun q => if q = "f" then some (FsNode.file 1 [65]) else none

/-- A four-byte file under modification time 5. -/
def fsFour : Fs := fun q => if q = "f" then some (FsNode.file 5 [1, 2, 3, 4]) else none

/-- A file system with a single directory. -/
def fsDir : Fs := fun q => if q = "d" then some (FsNode.dir 3) else none

/-! ## C4: watcher reference-count invariants -/

/-- The invariant maintained by the watcher table: every stored count is at
least one, and no path is bound twice (a JS `Map` has unique keys). -/
def goodWatch (st : WatchState) : Prop :=
  (∀ p r, lookupRefs st.watchers p = some r → 1 ≤ r)
  ∧ (st.watchers.map Prod.fst).Nodup

/-! ## Theorems -/

theorem emptyMatcher_wf (text : String) : jsMatcherWF emptyMatcher text := by
  intro li r h
  unfold emptyMatcher at h
  split at h
  · cases h
    exact ⟨Nat.le_refl li, by simpa⟩
  · cases h

theorem nextScanPos_lt (r : ExecResult) : r.index < nextScanPos r := by
  unfold nextScanPos
  split
  · omega
  · omega

theorem nextScanPos_stop_le (r : ExecResult) : r.index + r.len ≤ nextScanPos r := by
  unfold nextScanPos
  split
  · omega
  · omega

theorem matchLoopAux_bounds (f : Matcher) (text : String) (h : jsMatcherWF f text) :
    ∀ fuel li,
      (∀ o ∈ matchLoopAux f text fuel li, li ≤ o.1 ∧ o.1 ≤ o.2 ∧ o.2 ≤ text.length)
      ∧ (matchLoopAux f text fuel li).Pairwise (fun a b => a.1 < b.1 ∧ a.2 ≤ b.1) := by
  intro fuel
  induction fuel with
  | zero =>
    intro li
    constructor
    · intro o ho; simp [matchLoopAux] at ho
    · simp [matchLoopAux]
  | succ n ih =>
    intro li
    cases hf : f text li with
    | none =>
      constructor
      · intro o ho; simp [matchLoopAux, hf] at ho
      · simp [matchLoopAux, hf]
    | some r =>
      have hr := h li r hf
      have htail := ih (nextScanPos r)
      constructor
      · intro o ho
        simp only [matchLoopAux, hf, List.mem_cons] at ho
        rcases ho with ho | ho
        · subst ho
          exact ⟨hr.1, Nat.le_add_right _ _, hr.2⟩
        · have := (htail.1 o ho)
          have h1 : nextScanPos r ≤ o.1 := this.1
          have h2 : li ≤ nextScanPos r :=
            Nat.le_of_lt (Nat.lt_of_le_of_lt hr.1 (nextScanPos_lt r))
          exact ⟨Nat.le_trans h2 h1, this.2.1, this.2.2⟩
      · simp only [matchLoopAux, hf]
        refine List.pairwise_cons.mpr ⟨?_, htail.2⟩
        intro o ho
        have hmem := htail.1 o ho
        constructor
        · exact Nat.lt_of_lt_of_le (nextScanPos_lt r) hmem.1
        · exact Nat.le_trans (nextScanPos_stop_le r) hmem.1

theorem matchLoopAux_none (f : Matcher) (text : String) (li : Nat)
    (h : f text li = none) : ∀ fuel, matchLoopAux f text fuel li = [] := by
  intro fuel
  cases fuel with
  | zero => rfl
  | succ n => simp [matchLoopAux, h]

theorem exec_none_of_past_end (f : Matcher) (text : String) (h : jsMatcherWF f text)
    (li : Nat) (hli : text.length < li) : f text li = none := by
  cases hf : f text li with
  | none => rfl
  | some r =>
    have hr := h li r hf
    omega

theorem matchLoopAux_stable (f : Matcher) (text : String) (h : jsMatcherWF f text) :
    ∀ fuel1 li fuel2, text.length + 1 ≤ fuel1 + li → text.length + 1 ≤ fuel2 + li →
      matchLoopAux f text fuel1 li = matchLoopAux f text fuel2 li := by
  intro fuel1
  induction fuel1 with
  | zero =>
    intro li fuel2 h1 h2
    have hnone : f text li = none := exec_none_of_past_end f text h li (by omega)
    rw [matchLoopAux_none f text li hnone, matchLoopAux_none f text li hnone]
  | succ n ih =>
    intro li fuel2 h1 h2
    cases fuel2 with
    | zero =>
      have hnone : f text li = none := exec_none_of_past_end f text h li (by omega)
      rw [matchLoopAux_none f text li hnone, matchLoopAux_none f text li hnone]
    | succ m =>
      cases hf : f text li with
      | none => simp [matchLoopAux, hf]
      | some r =>
        have hr := h li r hf
        have hnext : li + 1 ≤ nextScanPos r :=
          Nat.succ_le_of_lt (Nat.lt_of_le_of_lt hr.1 (nextScanPos_lt r))
        simp only [matchLoopAux, hf]
        have := ih (nextScanPos r) m (by omega) (by omega)
        rw [this]

theorem matchLoopAux_length_le (f : Matcher) (text : String) :
    ∀ fuel li, (matchLoopAux f text fuel li).length ≤ fuel := by
  intro fuel
  induction fuel with
  | zero => intro li; simp [matchLoopAux]
  | succ n ih =>
    intro li
    cases hf : f text li with
    | none => simp [matchLoopAux, hf]
    | some r =>
      simp only [matchLoopAux, hf, List.length_cons]
      exact Nat.succ_le_succ (ih (nextScanPos r))

/-! ## Helper lemmas -/

theorem mem_addKey (s : List String) (p k : String) :
    k ∈ addKey s p ↔ k ∈ s ∨ k = p := by
  unfold addKey
  split
  · rename_i hp
    constructor
    · exact fun h => Or.inl h
    · rintro (h | h)
      · exact h
      · exact h ▸ hp
  · simp

theorem mem_foldl_addKey (present : List String) :
    ∀ (init : List String) (k : String),
      k ∈ present.foldl addKey init ↔ k ∈ init ∨ k ∈ present := by
  induction present with
  | nil => intro init k; simp
  | cons p ps ih =>
    intro init k
    rw [List.foldl_cons, ih (addKey init p) k, mem_addKey]
    simp only [List.mem_cons]
    tauto

theorem truncateBytes_length_le (maxBytes : Nat) (bytes : List Nat)
    (h : 0 < maxBytes) : (truncateBytes maxBytes bytes).length ≤ maxBytes := by
  unfold truncateBytes
  split
  · simpa using Nat.min_le_left maxBytes bytes.length
  · rename_i hc
    push_neg at hc
    have := hc (by omega)
    omega

theorem truncateBytes_zero (bytes : List Nat) : truncateBytes 0 bytes = bytes := by
  simp [truncateBytes]

/-! ## Claims -/

/-- C1: for every path, when `read(p, maxBytes)` finds a cache entry whose
stored modification time equals the current one, it returns the cached
content unchanged (and leaves the cache untouched); when the stored
modification time differs, it re-reads the file, stores the newly truncated
content under the new modification time, and returns it; and a second read
against an unchanged file system returns bytes identical to the first. -/
theorem C1_read_cache_correct (fs : Fs) (c : Cache) (p : String) (maxBytes : Nat) :
    (∀ node e, fs p = some node → c p = some e → e.mtimeMs = node.mtimeMs →
        readFileTruncated fs c p maxBytes = (e.text, c))
    ∧ (∀ m bytes e, fs p = some (FsNode.file m bytes) → c p = some e → e.mtimeMs ≠ m →
        readFileTruncated fs c p maxBytes
          = (truncateBytes maxBytes bytes,
             Cache.set c p { mtimeMs := m, text := truncateBytes maxBytes bytes }))
    ∧ (readFileTruncated fs (readFileTruncated fs c p maxBytes).2 p maxBytes).1
        = (readFileTruncated fs c p maxBytes).1 := by
  refine ⟨?_, ?_, ?_⟩
  · intro node e h1 h2 h3
    simp [readFileTruncated, h1, h2, h3]
  · intro m bytes e h1 h2 h3
    simp [readFileTruncated, readMiss, h1, h2, FsNode.mtimeMs, h3]
  · cases hfs : fs p with
    | none => simp [readFileTruncated, hfs]
    | some node =>
      cases hc : c p with
      | none =>
        cases node with
        | file m bytes =>
          simp [readFileTruncated, readMiss, hfs, hc, Cache.set, FsNode.mtimeMs]
        | dir m =>
          simp [readFileTruncated, readMiss, hfs, hc]
      | some e =>
        by_cases hm : e.mtimeMs = node.mtimeMs
        · simp [readFileTruncated, hfs, hc, hm]
        · cases node with
          | file m bytes =>
            simp only [FsNode.mtimeMs] at hm
            simp [readFileTruncated, readMiss, hfs, hc, hm, Cache.set, FsNode.mtimeMs]
          | dir m =>
            simp only [FsNode.mtimeMs] at hm
            simp [readFileTruncated, readMiss, hfs, hc, hm, FsNode.mtimeMs]

/-- Witness for C1: a cache hit returns the stored bytes unchanged. -/
theorem C1_read_cache_correct_witness :
    readFileTruncated fsHit cacheHit "f" 8 = ([104, 105], cacheHit) :=
  (C1_read_cache_correct fsHit cacheHit "f" 8).1 (FsNode.file 7 [104, 105])
    { mtimeMs := 7, text := [104, 105] } rfl rfl rfl

/-- C2: after the visible-editors handler rebuilds `expandedKeys`, a key is
expanded exactly when it is in the freshly derived set; the previous
contents of the set are irrelevant because `clear()` discards them. -/
theorem C2_reconcile_total (oldKeys present : List String) (k : String) :
    (isExpanded (reconcile oldKeys present) k = true ↔ k ∈ present)
    ∧ reconcile oldKeys present = reconcile [] present := by
  refine ⟨?_, rfl⟩
  unfold isExpanded reconcile
  rw [decide_eq_true_iff]
  rw [mem_foldl_addKey]
  simp

/-- C3 counterexample: the pass that started second completes first and
applies plan `[(3,7)]`; when the pass that started first completes
afterwards, `setDecorations` overwrites the applied plan with `[(0,5)]` —
the final plan is the earlier-started pass's, falsifying the claim that the
later-started pass's plan survives. -/
theorem C3_stale_pass_cex :
    runCompletions none [⟨2, [(3, 7)]⟩, ⟨1, [(0, 5)]⟩]
      = some (⟨1, [(0, 5)]⟩ : PassResult)
    ∧ (⟨1, [(0, 5)]⟩ : PassResult) ≠ ⟨2, [(3, 7)]⟩ := by
  exact ⟨rfl, by decide⟩

/-- C3 (amended): `updateDecorations` has no pass counter and performs no
staleness check; each completing pass applies its plan unconditionally, so
the finally applied plan is that of the pass that completed last, whatever
its start order. -/
theorem C3_last_completion_wins (applied : Option PassResult)
    (rs : List PassResult) (r : PassResult) (h : rs.getLast? = some r) :
    runCompletions applied rs = some r := by
  induction rs generalizing applied with
  | nil => cases h
  | cons a rest ih =>
    cases rest with
    | nil =>
      simp at h
      subst h
      rfl
    | cons b rest2 =>
      rw [List.getLast?_cons_cons] at h
      exact ih (applyPassResult applied a) h

/-- Witness for C3's amended theorem at the counterexample's trace. -/
theorem C3_last_completion_wins_witness :
    runCompletions (some ⟨0, []⟩) [⟨2, [(3, 7)]⟩, ⟨1, [(0, 5)]⟩]
      = some (⟨1, [(0, 5)]⟩ : PassResult) :=
  C3_last_completion_wins (some ⟨0, []⟩) [⟨2, [(3, 7)]⟩, ⟨1, [(0, 5)]⟩]
    ⟨1, [(0, 5)]⟩ rfl

/-- C5 counterexample: the compilable user pattern `/x*/g` over the empty
text produces the occurrence `(0, 0)`, for which `startOffset < endOffset`
fails — zero-length matches are pushed before the `lastIndex` guard
advances the scan. -/
theorem C5_offsets_cex :
    matchOffsets emptyMatcher "" = [(0, 0)] ∧ ¬ ((0 : Nat) < 0) :=
  ⟨rfl, by decide⟩

/-- C5 (amended): every produced occurrence satisfies
`startOffset ≤ endOffset ≤ length(text)` (equality on the left occurs
exactly for zero-length matches), and the occurrence sequence is strictly
ordered by start offset with no two occurrences overlapping. -/
theorem C5_occurrence_offsets (f : Matcher) (text : String)
    (h : jsMatcherWF f text) :
    (∀ o ∈ matchOffsets f text, o.1 ≤ o.2 ∧ o.2 ≤ text.length)
    ∧ (matchOffsets f text).Pairwise (fun a b => a.1 < b.1 ∧ a.2 ≤ b.1) := by
  have hb := matchLoopAux_bounds f text h (text.length + 1) 0
  exact ⟨fun o ho => (hb.1 o ho).2, hb.2⟩

/-- Witness for C5's amended theorem at the concrete empty-match pattern. -/
theorem C5_occurrence_offsets_witness :
    (matchOffsets emptyMatcher "").Pairwise (fun a b => a.1 < b.1 ∧ a.2 ≤ b.1) :=
  (C5_occurrence_offsets emptyMatcher "" (emptyMatcher_wf "")).2

/-- C6 counterexample: with the configured limit `maxBytes = 0` (reachable,
since the configuration is clamped only from below by `Math.max(0, ...)`),
the guard `if (maxBytes && ...)` is falsy and `read` returns the file's
full content — one byte, more than the claimed bound of zero bytes. -/
theorem C6_truncation_cex :
    (readFileTruncated fsOneByte emptyCache "f" 0).1 = [65]
    ∧ ¬ (readFileTruncated fsOneByte emptyCache "f" 0).1.length ≤ 0 := by
  constructor
  · rfl
  · intro h
    simp [readFileTruncated, readMiss, fsOneByte, emptyCache, truncateBytes] at h

/-- C6 (amended): `read(p, maxBytes)` returns the empty string on failure
(`stat` throwing); on a cache miss with `maxBytes > 0` it returns at most
`maxBytes` bytes of the file; with `maxBytes = 0` truncation is disabled
and the full content is returned.  (A modification-time-matching cache hit
instead returns the previously stored text, cf. C1.) -/
theorem C6_read_truncation_bound (fs : Fs) (c : Cache) (p : String) (maxBytes : Nat) :
    (fs p = none → readFileTruncated fs c p maxBytes = ([], c))
    ∧ (∀ m bytes, fs p = some (FsNode.file m bytes) →
        (∀ e, c p = some e → e.mtimeMs ≠ m) → 0 < maxBytes →
        (readFileTruncated fs c p maxBytes).1.length ≤ maxBytes)
    ∧ (∀ m bytes, fs p = some (FsNode.file m bytes) →
        (∀ e, c p = some e → e.mtimeMs ≠ m) →
        (readFileTruncated fs c p 0).1 = bytes) := by
  refine ⟨?_, ?_, ?_⟩
  · intro h
    simp [readFileTruncated, h]
  · intro m bytes hfs hne hpos
    cases hc : c p with
    | none =>
      simp only [readFileTruncated, readMiss, hfs, hc]
      exact truncateBytes_length_le maxBytes bytes hpos
    | some e =>
      have := hne e hc
      simp only [readFileTruncated, readMiss, hfs, hc, FsNode.mtimeMs, this,
        if_false, if_neg this]
      exact truncateBytes_length_le maxBytes bytes hpos
  · intro m bytes hfs hne
    cases hc : c p with
    | none =>
      simp [readFileTruncated, readMiss, hfs, hc, truncateBytes_zero]
    | some e =>
      have := hne e hc
      simp [readFileTruncated, readMiss, hfs, hc, FsNode.mtimeMs, this,
        truncateBytes_zero]

/-- Witness for C6's amended theorem: a bounded read of the four-byte file
with limit 2 returns at most two bytes. -/
theorem C6_read_truncation_bound_witness :
    (readFileTruncated fsFour emptyCache "f" 2).1.length ≤ 2 :=
  (C6_read_truncation_bound fsFour emptyCache "f" 2).2.1 5 [1, 2, 3, 4] rfl
    (fun e he => by simp [emptyCache] at he) (by decide)

/-- C7: resolution is purely lexical and deterministic, so two inner tag
spellings that decompose to the same segment sequence under the configured
separator convention (the convention is: split on the separator, split each
piece further on slashes, drop empty segments) resolve to the same
normalized absolute path, and resolving a tag twice yields the identical
path. -/
theorem C7_resolution_collapses (baseDir sep t1 t2 : JsStr)
    (h : partsOf t1 sep = partsOf t2 sep) :
    toAbsolute baseDir t1 sep = toAbsolute baseDir t2 sep
    ∧ toAbsolute baseDir t1 sep = toAbsolute baseDir t1 sep := by
  refine ⟨?_, rfl⟩
  unfold toAbsolute
  rw [h]

/-- Witness for C7: with separator `:`, the spellings `a/b:c` and `a:b:c`
decompose identically and resolve to the same absolute path. -/
theorem C7_resolution_collapses_witness :
    toAbsolute "/base".data "a/b:c".data ":".data
      = toAbsolute "/base".data "a:b:c".data ":".data :=
  (C7_resolution_collapses "/base".data ":".data "a/b:c".data "a:b:c".data
    (by decide)).1

/-- C8 counterexample: the cache is keyed by path and guarded only by the
modification time, not by `maxBytes`.  After a first read with limit 2
caches `[1, 2]` of the four-byte file, a recomputation after the limit is
changed to 3 still returns `[1, 2]` for the unchanged file, not the
`[1, 2, 3]` the new limit would produce — the changed option does not take
effect. -/
theorem C8_stale_limit_cex :
    (readFileTruncated fsFour (readFileTruncated fsFour emptyCache "f" 2).2 "f" 3).1
      = [1, 2]
    ∧ truncateBytes 3 [1, 2, 3, 4] = [1, 2, 3]
    ∧ ([1, 2] : List Nat) ≠ [1, 2, 3] := by
  refine ⟨rfl, rfl, by decide⟩

/-- C8 (amended): a changed `maxBytes` takes effect on the next
recomputation only for paths read on a cache miss (no entry, or a changed
modification time); a path whose file is unchanged on disk is served from
the cache with its previously truncated content.  Changing any option of
the `tagHighlighter` section — in particular the pattern or style options —
disposes and recreates the decoration resources before the recomputation;
an unrelated configuration change leaves them alone. -/
theorem C8_config_change_effect (fs : Fs) (c : Cache) (p : String)
    (s : DecoResources) :
    (∀ m bytes newMax, fs p = some (FsNode.file m bytes) →
        (∀ e, c p = some e → e.mtimeMs ≠ m) →
        (readFileTruncated fs c p newMax).1 = truncateBytes newMax bytes)
    ∧ (∀ node e maxB, fs p = some node → c p = some e → e.mtimeMs = node.mtimeMs →
        (readFileTruncated fs c p maxB).1 = e.text)
    ∧ onConfigChange true s
        = { generation := s.generation + 1, disposals := s.disposals + 1 }
    ∧ onConfigChange false s = s := by
  refine ⟨?_, ?_, rfl, rfl⟩
  · intro m bytes newMax hfs hne
    cases hc : c p with
    | none => simp [readFileTruncated, readMiss, hfs, hc]
    | some e =>
      have := hne e hc
      simp [readFileTruncated, readMiss, hfs, hc, FsNode.mtimeMs, this]
  · intro node e maxB hfs hc hm
    simp [readFileTruncated, hfs, hc, hm]

/-- Witness for C8's amended theorem: a cache-miss read of the four-byte
file with the new limit 3 returns exactly the newly truncated bytes, and a
`tagHighlighter` configuration change recreates the decoration
resources. -/
theorem C8_config_change_effect_witness :
    (readFileTruncated fsFour emptyCache "f" 3).1 = truncateBytes 3 [1, 2, 3, 4]
    ∧ onConfigChange true ⟨0, 0⟩ = ({ generation := 1, disposals := 1 } : DecoResources) :=
  ⟨(C8_config_change_effect fsFour emptyCache "f" ⟨0, 0⟩).1 5 [1, 2, 3, 4] 3 rfl
      (fun e he => by simp [emptyCache] at he),
   (C8_config_change_effect fsFour emptyCache "f" ⟨0, 0⟩).2.2.1⟩

/-- C9: the scan terminates for every compiled pattern, including ones with
zero-length matches: after any match the scan position strictly advances
(by at least one character past a zero-length match), the loop's result is
stable once the fuel covers the text — so the unbounded `while` loop stops —
and at most `length(text) + 1` iterations ever run. -/
theorem C9_scan_terminates (f : Matcher) (text : String) (h : jsMatcherWF f text) :
    (∀ li r, f text li = some r → li < nextScanPos r)
    ∧ (∀ fuel, text.length + 1 ≤ fuel →
        matchLoopAux f text fuel 0 = matchOffsets f text)
    ∧ (matchOffsets f text).length ≤ text.length + 1 := by
  refine ⟨?_, ?_, ?_⟩
  · intro li r hf
    exact Nat.lt_of_le_of_lt (h li r hf).1 (nextScanPos_lt r)
  · intro fuel hfuel
    exact matchLoopAux_stable f text h fuel 0 (text.length + 1) (by omega) (by omega)
  · exact matchLoopAux_length_le f text (text.length + 1) 0

/-- Witness for C9 at the zero-length-match pattern `/x*/g` over the empty
text: extra fuel does not change the produced occurrences. -/
theorem C9_scan_terminates_witness :
    matchLoopAux emptyMatcher "" 7 0 = matchOffsets emptyMatcher "" :=
  (C9_scan_terminates emptyMatcher "" (emptyMatcher_wf "")).2.1 7 (by decide)

/-- C10: a path whose target is a directory is reported as existing by
`pathExists` (`stat.isFile() || stat.isDirectory()`), while
`readFileTruncated` on it returns the empty string, because `readFile`
fails with `EISDIR` and the failure is swallowed (assuming, as the cache
discipline guarantees, no stale cache entry matches the directory's
modification time). -/
theorem C10_directory_target (fs : Fs) (c : Cache) (p : String) (maxBytes : Nat)
    (m : Int) (hdir : fs p = some (FsNode.dir m))
    (hc : ∀ e, c p = some e → e.mtimeMs ≠ m) :
    pathExists fs p = true ∧ readFileTruncated fs c p maxBytes = ([], c) := by
  constructor
  · simp [pathExists, hdir]
  · cases hce : c p with
    | none => simp [readFileTruncated, readMiss, hdir, hce]
    | some e =>
      have := hc e hce
      simp [readFileTruncated, readMiss, hdir, hce, FsNode.mtimeMs, this]

/-- Witness for C10 at a concrete directory. -/
theorem C10_directory_target_witness :
    pathExists fsDir "d" = true ∧ readFileTruncated fsDir emptyCache "d" 8 = ([], emptyCache) :=
  C10_directory_target fsDir emptyCache "d" 8 3 rfl
    (fun e he => by simp [emptyCache] at he)

theorem lookupRefs_none_iff (w : List (String × Int)) (p : String) :
    lookupRefs w p = none ↔ p ∉ w.map Prod.fst := by
  induction w with
  | nil => simp [lookupRefs]
  | cons a rest ih =>
    obtain ⟨q, r⟩ := a
    by_cases hq : q = p
    · subst hq
      simp [lookupRefs]
    · simp only [lookupRefs, if_neg hq, List.map_cons, List.mem_cons, ih]
      constructor
      · rintro hnp (h | h)
        · exact hq h.symm
        · exact hnp h
      · intro hnp
        exact fun h => hnp (Or.inr h)

theorem lookupRefs_eraseKey_self (w : List (String × Int)) (p : String)
    (hnd : (w.map Prod.fst).Nodup) : lookupRefs (eraseKey w p) p = none := by
  induction w with
  | nil => rfl
  | cons a rest ih =>
    obtain ⟨q, r⟩ := a
    simp only [List.map_cons, List.nodup_cons] at hnd
    by_cases hq : q = p
    · subst hq
      simp only [eraseKey, if_pos rfl]
      exact (lookupRefs_none_iff rest q).mpr hnd.1
    · simp only [eraseKey, if_neg hq, lookupRefs, if_neg hq]
      exact ih hnd.2

theorem lookupRefs_eraseKey_ne (w : List (String × Int)) (p x : String)
    (hx : x ≠ p) : lookupRefs (eraseKey w p) x = lookupRefs w x := by
  induction w with
  | nil => rfl
  | cons a rest ih =>
    obtain ⟨q, r⟩ := a
    by_cases hq : q = p
    · subst hq
      have : q ≠ x := fun h => hx (h ▸ rfl)
      simp [eraseKey, lookupRefs, this]
    · simp only [eraseKey, if_neg hq, lookupRefs]
      by_cases hqx : q = x
      · simp [hqx]
      · simp [hqx, ih]

theorem lookupRefs_setRefs_self (w : List (String × Int)) (p : String) (v r : Int)
    (h : lookupRefs w p = some r) : lookupRefs (setRefs w p v) p = some v := by
  induction w with
  | nil => cases h
  | cons a rest ih =>
    obtain ⟨q, r0⟩ := a
    by_cases hq : q = p
    · simp [setRefs, lookupRefs, hq]
    · simp only [lookupRefs, if_neg hq] at h
      simp only [setRefs, if_neg hq, lookupRefs, if_neg hq]
      exact ih h

theorem lookupRefs_setRefs_ne (w : List (String × Int)) (p : String) (v : Int)
    (x : String) (hx : x ≠ p) :
    lookupRefs (setRefs w p v) x = lookupRefs w x := by
  induction w with
  | nil =>
    have : p ≠ x := fun h => hx h.symm
    simp [setRefs, lookupRefs, this]
  | cons a rest ih =>
    obtain ⟨q, r0⟩ := a
    by_cases hq : q = p
    · subst hq
      have : q ≠ x := fun h => hx h.symm
      simp [setRefs, lookupRefs, this]
    · simp only [setRefs, if_neg hq, lookupRefs]
      by_cases hqx : q = x
      · simp [hqx]
      · simp [hqx, ih]

theorem mapFst_setRefs_of_mem (w : List (String × Int)) (p : String) (v r : Int)
    (h : lookupRefs w p = some r) :
    (setRefs w p v).map Prod.fst = w.map Prod.fst := by
  induction w with
  | nil => cases h
  | cons a rest ih =>
    obtain ⟨q, r0⟩ := a
    by_cases hq : q = p
    · simp [setRefs, hq]
    · simp only [lookupRefs, if_neg hq] at h
      simp [setRefs, if_neg hq, ih h]

theorem mapFst_eraseKey_sublist (w : List (String × Int)) (p : String) :
    ((eraseKey w p).map Prod.fst).Sublist (w.map Prod.fst) := by
  induction w with
  | nil => simp [eraseKey]
  | cons a rest ih =>
    obtain ⟨q, r⟩ := a
    by_cases hq : q = p
    · simp only [eraseKey, if_pos hq, List.map_cons]
      exact (List.sublist_cons_self q (rest.map Prod.fst))
    · simp only [eraseKey, if_neg hq, List.map_cons]
      exact ih.cons₂ q

theorem goodWatch_initial : goodWatch initialWatchState := by
  constructor
  · intro p r h
    cases h
  · simp [initialWatchState]

theorem goodWatch_retain (st : WatchState) (p : String) (h : goodWatch st) :
    goodWatch (retainWatcher st p) := by
  unfold retainWatcher
  cases hl : lookupRefs st.watchers p with
  | none =>
    constructor
    · intro q v hq
      simp only [lookupRefs] at hq
      split at hq
      · cases hq
        omega
      · exact h.1 q v hq
    · simp only [List.map_cons, List.nodup_cons]
      exact ⟨(lookupRefs_none_iff st.watchers p).mp hl, h.2⟩
  | some r =>
    constructor
    · intro q v hq
      by_cases hqp : q = p
      · subst hqp
        rw [lookupRefs_setRefs_self st.watchers q (r + 1) r hl] at hq
        cases hq
        have := h.1 q r hl
        omega
      · rw [lookupRefs_setRefs_ne st.watchers p (r + 1) q hqp] at hq
        exact h.1 q v hq
    · rw [mapFst_setRefs_of_mem st.watchers p (r + 1) r hl]
      exact h.2

theorem goodWatch_release (st : WatchState) (p : String) (h : goodWatch st) :
    goodWatch (releaseWatcher st p) := by
  unfold releaseWatcher
  cases hl : lookupRefs st.watchers p with
  | none => exact h
  | some r =>
    by_cases hz : r - 1 ≤ 0
    · simp only [if_pos hz]
      constructor
      · intro q v hq
        by_cases hqp : q = p
        · subst hqp
          rw [lookupRefs_eraseKey_self st.watchers q h.2] at hq
          cases hq
        · rw [lookupRefs_eraseKey_ne st.watchers p q hqp] at hq
          exact h.1 q v hq
      · exact (mapFst_eraseKey_sublist st.watchers p).nodup h.2
    · simp only [if_neg hz]
      constructor
      · intro q v hq
        by_cases hqp : q = p
        · subst hqp
          rw [lookupRefs_setRefs_self st.watchers q (r - 1) r hl] at hq
          cases hq
          omega
        · rw [lookupRefs_setRefs_ne st.watchers p (r - 1) q hqp] at hq
          exact h.1 q v hq
      · rw [mapFst_setRefs_of_mem st.watchers p (r - 1) r hl]
        exact h.2

theorem goodWatch_run (ops : List WOp) :
    ∀ st : WatchState, goodWatch st → goodWatch (runWOps st ops) := by
  induction ops with
  | nil => intro st h; exact h
  | cons op rest ih =>
    intro st h
    cases op with
    | retain p => exact ih (retainWatcher st p) (goodWatch_retain st p h)
    | release p => exact ih (releaseWatcher st p) (goodWatch_release st p h)

/-- C4: over every finite sequence of retain/release operations from the
initial state, every stored reference count stays non-negative (in fact at
least one); releasing a path with no registration is a no-op; and releasing
the last reference for a path disposes its watcher, removes its watch-table
entry, and removes its cache entry. -/
theorem C4_refcount_invariants (ops : List WOp) :
    (∀ p r, lookupRefs (runWOps initialWatchState ops).watchers p = some r → 0 ≤ r)
    ∧ (∀ p, lookupRefs (runWOps initialWatchState ops).watchers p = none →
        releaseWatcher (runWOps initialWatchState ops) p
          = runWOps initialWatchState ops)
    ∧ (∀ p, lookupRefs (runWOps initialWatchState ops).watchers p = some 1 →
        lookupRefs (releaseWatcher (runWOps initialWatchState ops) p).watchers p = none
        ∧ (releaseWatcher (runWOps initialWatchState ops) p).cache p = none
        ∧ (releaseWatcher (runWOps initialWatchState ops) p).disposed
            = (runWOps initialWatchState ops).disposed ++ [p]) := by
  have hg := goodWatch_run ops initialWatchState goodWatch_initial
  refine ⟨?_, ?_, ?_⟩
  · intro p r h
    have := hg.1 p r h
    omega
  · intro p h
    unfold releaseWatcher
    rw [h]
  · intro p h
    unfold releaseWatcher
    rw [h]
    dsimp only
    rw [if_pos (show (1 : Int) - 1 ≤ 0 by omega)]
    refine ⟨?_, ?_, rfl⟩
    · exact lookupRefs_eraseKey_self _ p hg.2
    · simp [Cache.del]

/-- Witness for C4: one retain of `"f"` yields count one; the release that
follows removes the table entry, clears the cache entry and disposes the
watcher. -/
theorem C4_refcount_invariants_witness :
    lookupRefs (runWOps initialWatchState [WOp.retain "f"]).watchers "f" = some 1
    ∧ lookupRefs
        (releaseWatcher (runWOps initialWatchState [WOp.retain "f"]) "f").watchers "f"
        = none
    ∧ (releaseWatcher (runWOps initialWatchState [WOp.retain "f"]) "f").cache "f" = none
    ∧ (releaseWatcher (runWOps initialWatchState [WOp.retain "f"]) "f").disposed
        = (runWOps initialWatchState [WOp.retain "f"]).disposed ++ ["f"] := by
  have h1 : lookupRefs (runWOps initialWatchState [WOp.retain "f"]).watchers "f"
      = some 1 := rfl
  have h := (C4_refcount_invariants [WOp.retain "f"]).2.2 "f" h1
  exact ⟨h1, h.1, h.2.1, h.2.2⟩
